import Mathlib

/-!
Verification of the amortization engine in `src/streamlit_app.py`
(Mortgage_Dashboard).

The program's money arithmetic is Python floating point; the embedding below
uses exact rationals, so every recurrence is translated literally
(per-month interest, clamp on payoff, early loop exit) while arithmetic is
idealized to ℚ.  The three schedule producers are loops with an early
`break`; they are embedded as structural recursions on the number of loop
iterations still allowed.
-/

/-- Python `int(...)` applied to a rational: truncation toward zero
(floor for nonnegative arguments, ceiling for negative ones). -/
def pyInt (q : ℚ) : ℤ := if q < 0 then ⌈q⌉ else ⌊q⌋

/-- Python `**` as this program uses it: the base is a rational and the
exponent `-(years*12)` is an integer at every call site (`years` is an
integer slider value, or `years - lump_month/12` whose product with 12 is
again an integer), so the real power equals the integer power taken here
through the exponent's numerator. -/
def qpow (b : ℚ) (e : ℚ) : ℚ := b ^ e.num

/-- Source lines 6-9: `calculate_monthly_payment`, the standard annuity
formula `monthly_rate * principal / (1 - (1 + monthly_rate) ** -n_payments)`
with `monthly_rate = annual_interest_rate / 12` and
`n_payments = years * 12`. -/
def calculate_monthly_payment (principal annual_interest_rate years : ℚ) : ℚ :=
  let monthly_rate := annual_interest_rate / 12
  monthly_rate * principal / (1 - qpow (1 + monthly_rate) (-(years * 12)))

/-- Same function with Python's error behaviour made explicit: float
division by zero raises `ZeroDivisionError` in Python, so the call fails
exactly when the annuity denominator is zero. -/
def calculate_monthly_paymentE (principal annual_interest_rate years : ℚ) :
    Option ℚ :=
  let monthly_rate := annual_interest_rate / 12
  let denom := 1 - qpow (1 + monthly_rate) (-(years * 12))
  if denom = 0 then none else some (monthly_rate * principal / denom)

/-- One row of the plain schedule: the per-month columns appended on source
lines 26-29 (`Balance` is the post-payment closing balance).  The `Month`
column is the row index plus one and is left implicit. -/
structure SRec where
  balance : ℚ
  interest : ℚ
  principal : ℚ
  payment : ℚ
deriving DecidableEq, Repr

/-- Loop body of `amortization_schedule` (source lines 17-31).  The counter
counts the loop iterations still allowed (`n_payments` at the top call); the
`break` on `balance <= 0` is the emptiness test on the tail. -/
def schedGo (monthly_rate payment : ℚ) : ℚ → ℕ → List SRec
  | _, 0 => []
  | balance, k + 1 =>
    let interest := balance * monthly_rate
    let principal_payment := payment - interest
    let pp := if principal_payment > balance then balance else principal_payment
    let payment_this_month :=
      if principal_payment > balance then interest + pp else payment
    let balance2 := balance - pp
    ⟨balance2, interest, pp, payment_this_month⟩ ::
      (if balance2 ≤ 0 then [] else schedGo monthly_rate payment balance2 k)

/-- Source lines 11-41: `amortization_schedule` (the `years` argument is the
integer slider value, so the loop bound `years * 12` is a natural number). -/
def amortization_schedule (principal annual_interest_rate : ℚ) (years : ℕ) :
    List SRec :=
  schedGo (annual_interest_rate / 12)
    (calculate_monthly_payment principal annual_interest_rate years)
    principal (years * 12)

/-- One row of the schedule with extra payments: the per-month columns
appended on source lines 65-69. -/
structure PRec where
  balance : ℚ
  interest : ℚ
  sched_principal : ℚ
  extra_principal : ℚ
  payment : ℚ
deriving DecidableEq, Repr

/-- Python truthiness test `if lump_sum_month and month == lump_sum_month`
on source line 56: a `None` or `0` lump month never matches. -/
def lumpApplies (lump_sum_month : Option ℕ) (month : ℕ) : Bool :=
  match lump_sum_month with
  | none => false
  | some L => L != 0 && month == L

/-- One iteration of the loop of `amortization_schedule_with_payoffs`
(source lines 53-64): interest, scheduled principal, extra with optional
lump sum, the clamp-and-resplit on payoff, and the closing balance. -/
def payStep (monthly_rate base_payment monthly_extra_payment : ℚ)
    (lump_sum_month : Option ℕ) (lump_sum_amount : ℚ)
    (month : ℕ) (balance : ℚ) : PRec :=
  let interest := balance * monthly_rate
  let sched0 := base_payment - interest
  let extra0 := monthly_extra_payment +
    (if lumpApplies lump_sum_month month then lump_sum_amount else 0)
  let total0 := sched0 + extra0
  let total := if total0 > balance then balance else total0
  let sched := if total0 > balance then min sched0 total else sched0
  let extra := if total0 > balance then total - sched else extra0
  ⟨balance - total, interest, sched, extra, interest + total⟩

/-- Loop of `amortization_schedule_with_payoffs` (source lines 52-71),
carrying the current month number for the lump-sum test. -/
def payGo (monthly_rate base_payment monthly_extra_payment : ℚ)
    (lump_sum_month : Option ℕ) (lump_sum_amount : ℚ) :
    ℕ → ℚ → ℕ → List PRec
  | _, _, 0 => []
  | month, balance, k + 1 =>
    let row := payStep monthly_rate base_payment monthly_extra_payment
      lump_sum_month lump_sum_amount month balance
    row :: (if row.balance ≤ 0 then []
      else payGo monthly_rate base_payment monthly_extra_payment
        lump_sum_month lump_sum_amount (month + 1) row.balance k)

/-- Source lines 43-82: `amortization_schedule_with_payoffs`. -/
def amortization_schedule_with_payoffs (principal annual_interest_rate : ℚ)
    (years : ℕ) (monthly_extra_payment : ℚ) (lump_sum_month : Option ℕ)
    (lump_sum_amount : ℚ) : List PRec :=
  payGo (annual_interest_rate / 12)
    (calculate_monthly_payment principal annual_interest_rate years)
    monthly_extra_payment lump_sum_month lump_sum_amount 1 principal
    (years * 12)

/-- One row of the refinance continuation: the columns appended on source
lines 105-110, including the offset month number and the running cumulative
totals. -/
structure RRec where
  month : ℕ
  balance : ℚ
  interest : ℚ
  payment : ℚ
  cum_interest : ℚ
  cum_payment : ℚ
deriving DecidableEq, Repr

/-- Loop of `amortization_refinance` (source lines 94-112): the plain
clamped recurrence with in-loop cumulative sums started at the supplied
offsets and months numbered from `start_month + 1`. -/
def refiGo (monthly_rate monthly_payment : ℚ) (start_month : ℕ) :
    ℚ → ℚ → ℚ → ℕ → ℕ → List RRec
  | _, _, _, _, 0 => []
  | balance, cum_int, cum_pay, m, k + 1 =>
    let interest := balance * monthly_rate
    let princ0 := monthly_payment - interest
    let princ := if princ0 > balance then balance else princ0
    let payment_m := if princ0 > balance then interest + princ
      else monthly_payment
    let balance2 := balance - princ
    let ci := cum_int + interest
    let cp := cum_pay + payment_m
    ⟨start_month + m, balance2, interest, payment_m, ci, cp⟩ ::
      (if balance2 ≤ 0 then []
        else refiGo monthly_rate monthly_payment start_month balance2 ci cp
          (m + 1) k)

/-- Source lines 84-120: `amortization_refinance`.  The loop bound is the
Python `int(years * 12)` (source line 88), truncation toward zero. -/
def amortization_refinance (principal annual_interest_rate years
    monthly_payment : ℚ) (start_month : ℕ)
    (cum_interest_offset cum_payment_offset : ℚ) : List RRec :=
  refiGo (annual_interest_rate / 12) monthly_payment start_month principal
    cum_interest_offset cum_payment_offset 1 (pyInt (years * 12)).toNat

/-- Closing-balance column of a plain schedule. -/
def balancesS (S : List SRec) : List ℚ := S.map SRec.balance

/-- Closing-balance column of a schedule with extras. -/
def balancesP (S : List PRec) : List ℚ := S.map PRec.balance

/-- Closing-balance column of a refinance continuation. -/
def balancesR (S : List RRec) : List ℚ := S.map RRec.balance

/-- Running sums starting from an accumulator (pandas `cumsum` on source
lines 39-40 and 80-81, with accumulator 0). -/
def cumsumFrom (acc : ℚ) : List ℚ → List ℚ
  | [] => []
  | x :: xs => (acc + x) :: cumsumFrom (acc + x) xs

/-- Pandas `cumsum` of a column. -/
def cumsum : List ℚ → List ℚ := cumsumFrom 0

/-- The entries of a list descend strictly from the given starting value. -/
def strictChain : ℚ → List ℚ → Prop
  | _, [] => True
  | b, x :: xs => x < b ∧ strictChain x xs

/-- The payoff-shape invariant of a closing-balance column: the schedule is
nonempty, balances strictly decrease from the opening balance, the final
balance is exactly 0, and every balance before the final one is positive
(so no record exists after the month the balance first reaches 0). -/
def payoffInvariant (b0 : ℚ) (bs : List ℚ) : Prop :=
  bs ≠ [] ∧ strictChain b0 bs ∧ bs.getLast? = some 0 ∧
    ∀ q ∈ bs.dropLast, 0 < q

/-- Closing balance after one month of the extras recurrence with no lump
sum applied: the balance component of `payStep`. -/
def stepBalance (monthly_rate base_payment monthly_extra_payment : ℚ)
    (balance : ℚ) : ℚ :=
  (payStep monthly_rate base_payment monthly_extra_payment none 0 1
    balance).balance

/-- Balance at the start of month `j + 1` of the extras recurrence, when no
lump sum has been applied in months `1..j`. -/
def balAt (monthly_rate base_payment monthly_extra_payment principal : ℚ)
    (j : ℕ) : ℚ :=
  (stepBalance monthly_rate base_payment monthly_extra_payment)^[j] principal

/-- Stitch-continuity shape of the first record of a refinance
continuation: month number `start_month + 1`, the stated first-month
interest, cumulative interest equal to the interest offset plus that
interest (greater or equal, strictly greater unless the interest is zero),
and cumulative payment equal to the payment offset plus the first month's
payment. -/
def firstRecordStitch (S : List RRec) (start_month : ℕ)
    (first_interest ci cp : ℚ) : Prop :=
  match S with
  | [] => False
  | row :: _ =>
      row.month = start_month + 1 ∧ row.interest = first_interest ∧
      row.cum_interest = ci + row.interest ∧
      row.cum_payment = cp + row.payment ∧
      (0 ≤ row.interest → ci ≤ row.cum_interest) ∧
      (0 < row.interest → ci < row.cum_interest) ∧
      (row.interest = 0 → row.cum_interest = ci)

/-- Per-month accounting identity of the plain schedule: payment equals
interest plus principal paid. -/
def payIdentPlain (S : List SRec) : Prop :=
  ∀ row ∈ S, row.payment = row.interest + row.principal

/-- Per-month accounting identity of the extras schedule: payment equals
interest plus total principal, the reported extra principal is
nonnegative, and the reported scheduled principal never exceeds the total
principal paid. -/
def payIdentExtras (S : List PRec) : Prop :=
  ∀ row ∈ S,
    row.payment = row.interest + (row.sched_principal + row.extra_principal) ∧
    0 ≤ row.extra_principal ∧
    row.sched_principal ≤ row.sched_principal + row.extra_principal

/-- Per-month accounting identity of a refinance continuation, threading
the opening balance: each month's payment equals its interest plus the
principal actually retired (opening balance minus closing balance). -/
def accountsOK : ℚ → List RRec → Prop
  | _, [] => True
  | b, row :: rest =>
      row.payment = row.interest + (b - row.balance) ∧
        accountsOK row.balance rest

/-! Cast lemmas for the exponent of the annuity formula. -/

/-- With an integer number of years the annuity exponent is the integer
`-(years * 12)`. -/
lemma qpow_neg_natCast (b : ℚ) (n : ℕ) :
    qpow b (-((n : ℚ) * 12)) = b ^ (-((n * 12 : ℕ) : ℤ)) := by
  unfold qpow
  congr 1
  rw [show ((n : ℚ) * 12) = (((n * 12 : ℕ) : ℤ) : ℚ) by push_cast; ring,
    Rat.neg_num, Rat.num_intCast]

/-- Same as `qpow_neg_natCast` for an integer argument. -/
lemma qpow_neg_intCast (b : ℚ) (z : ℤ) :
    qpow b (-((z : ℚ) * 12)) = b ^ (-(z * 12)) := by
  unfold qpow
  congr 1
  rw [show ((z : ℚ) * 12) = (((z * 12 : ℤ)) : ℚ) by push_cast; ring,
    Rat.neg_num, Rat.num_intCast]

/-- When the argument is nonnegative, Python truncation agrees with the
floor. -/
lemma pyInt_eq_floor (q : ℚ) (h : 0 ≤ q) : pyInt q = ⌊q⌋ :=
  if_neg (not_lt.2 h)

/-- C2.  The payment calculator returns exactly the standard annuity
formula `monthlyRate * principal / (1 - (1 + monthlyRate) ^ -n)` with
`monthlyRate = annualRate / 12` and `n = years * 12`, for every principal
greater than 0, rate strictly between 0 and 1, and positive term. -/
theorem calculate_monthly_payment_annuity_formula
    (principal annualRate : ℚ) (years : ℕ) (hp : 0 < principal)
    (hr0 : 0 < annualRate) (hr1 : annualRate < 1) (hy : 0 < years) :
    calculate_monthly_payment principal annualRate years =
      (annualRate / 12) * principal /
        (1 - (1 + annualRate / 12) ^ (-((years * 12 : ℕ) : ℤ))) := by
  unfold calculate_monthly_payment
  simp only [qpow_neg_natCast]

/-- Witness for C2 at principal 100, rate 12/100, term one year. -/
theorem calculate_monthly_payment_annuity_formula_witness :
    calculate_monthly_payment 100 (12/100) ((1 : ℕ) : ℚ) =
      ((12/100 : ℚ) / 12) * 100 /
        (1 - (1 + (12/100 : ℚ) / 12) ^ (-((1 * 12 : ℕ) : ℤ))) :=
  calculate_monthly_payment_annuity_formula 100 (12/100) 1 (by norm_num)
    (by norm_num) (by norm_num) (by norm_num)

/-- C8, counterexample.  At `years = -1` (and rate 5 percent) the claim
says the calculator must fail, but the annuity denominator is nonzero and
a finite value is returned. -/
theorem payment_negative_years_finite_cex :
    (calculate_monthly_paymentE 100000 (1/20) (((-1 : ℤ) : ℚ))).isSome = true := by
  unfold calculate_monthly_paymentE
  simp only [qpow_neg_intCast]
  norm_num

/-- C8, amended.  The calculator fails (Python `ZeroDivisionError`) when
the annual rate is exactly 0 or when `years = 0`, because the annuity
denominator vanishes there; but for negative years with a rate strictly
between 0 and 1 the denominator is nonzero and a finite value is
returned, so failure does not extend to all `years ≤ 0`. -/
theorem payment_degenerate_inputs :
    (∀ principal years : ℚ,
      calculate_monthly_paymentE principal 0 years = none) ∧
    (∀ principal annualRate : ℚ,
      calculate_monthly_paymentE principal annualRate 0 = none) ∧
    (∀ (principal annualRate : ℚ) (years : ℤ), 0 < annualRate →
      annualRate < 1 → years < 0 →
      (calculate_monthly_paymentE principal annualRate
        ((years : ℚ))).isSome = true) := by
  refine ⟨?_, ?_, ?_⟩
  · intro p y
    simp [calculate_monthly_paymentE, qpow]
  · intro p r
    simp [calculate_monthly_paymentE, qpow]
  · intro p r y hr0 hr1 hy
    unfold calculate_monthly_paymentE
    simp only [qpow_neg_intCast]
    have hbase : 1 < 1 + r / 12 := by linarith
    have hexp : 0 < -(y * 12) := by omega
    have hpow : 1 < (1 + r / 12) ^ (-(y * 12)) := one_lt_zpow₀ hbase hexp
    rw [if_neg (by linarith)]
    rfl

/-- Witness for C8's amended statement: failure at rate 0, failure at
years 0, success at years -1. -/
theorem payment_degenerate_inputs_witness :
    calculate_monthly_paymentE 7 0 5 = none ∧
    calculate_monthly_paymentE 7 (1/2) 0 = none ∧
    (calculate_monthly_paymentE 7 (1/2) (((-1 : ℤ) : ℚ))).isSome = true :=
  ⟨payment_degenerate_inputs.1 7 5, payment_degenerate_inputs.2.1 7 (1/2),
    payment_degenerate_inputs.2.2 7 (1/2) (-1) (by norm_num) (by norm_num)
      (by norm_num)⟩

/-- C6.  With a positive carry balance and at least one remaining month,
the first record of the continuation has month `transitionMonth + 1`,
first-month interest `carry * monthlyRate`, cumulative interest equal to
the interest offset plus that interest (so at least the offset, strictly
more unless the interest is zero), and cumulative payment equal to the
payment offset plus the first month's payment. -/
theorem refinance_stitch_continuity (principal annualRate years
    monthlyPayment : ℚ) (start_month : ℕ) (ci cp : ℚ)
    (hp : 0 < principal) (hr : 0 ≤ annualRate) (hy : 1 ≤ years * 12) :
    firstRecordStitch
      (amortization_refinance principal annualRate years monthlyPayment
        start_month ci cp)
      start_month (principal * (annualRate / 12)) ci cp := by
  have hq : pyInt (years * 12) = ⌊years * 12⌋ :=
    pyInt_eq_floor _ (by linarith)
  have h1 : (1 : ℤ) ≤ ⌊years * 12⌋ := Int.le_floor.mpr (by exact_mod_cast hy)
  have hn : 1 ≤ (pyInt (years * 12)).toNat := by omega
  unfold amortization_refinance
  obtain ⟨k, hk⟩ : ∃ k, (pyInt (years * 12)).toNat = k + 1 :=
    ⟨(pyInt (years * 12)).toNat - 1, by omega⟩
  rw [hk, refiGo]
  have hint : 0 ≤ principal * (annualRate / 12) := by positivity
  dsimp only [firstRecordStitch]
  refine ⟨rfl, rfl, rfl, rfl, fun h => by linarith, fun h => by linarith,
    fun h => by rw [h, add_zero]⟩

/-- Witness for C6 at concrete inputs. -/
theorem refinance_stitch_continuity_witness :
    firstRecordStitch (amortization_refinance 100 (12/100) 1 2 7 3 4) 7
      (100 * ((12/100) / 12)) 3 4 :=
  refinance_stitch_continuity 100 (12/100) 1 2 7 3 4 (by norm_num)
    (by norm_num) (by norm_num)

/-- The continuation loop never emits more records than its iteration
bound. -/
lemma refiGo_length_le (r P : ℚ) (sm : ℕ) :
    ∀ (k : ℕ) (b ci cp : ℚ) (m : ℕ),
      (refiGo r P sm b ci cp m k).length ≤ k := by
  intro k
  induction k with
  | zero => intro b ci cp m; simp [refiGo]
  | succ k ih =>
    intro b ci cp m
    rw [refiGo]
    simp only [List.length_cons, Nat.add_le_add_iff_right]
    split_ifs <;> first
      | exact ih _ _ _ _
      | simp

/-- With a zero monthly payment, a positive balance, and a nonnegative
rate, the continuation never pays down the balance and runs for its full
iteration bound. -/
lemma refiGo_zero_payment_length (r : ℚ) (sm : ℕ) (hr : 0 ≤ r) :
    ∀ (k : ℕ) (b ci cp : ℚ) (m : ℕ), 0 < b →
      (refiGo r 0 sm b ci cp m k).length = k := by
  intro k
  induction k with
  | zero => intro b ci cp m _; simp [refiGo]
  | succ k ih =>
    intro b ci cp m hb
    rw [refiGo]
    have hint : 0 ≤ b * r := by positivity
    have hnc : ¬(0 - b * r > b) := by push_neg; linarith
    have hb2 : 0 < b - (0 - b * r) := by linarith
    simp only [if_neg hnc, if_neg (not_le.2 hb2), List.length_cons]
    rw [ih _ _ _ _ hb2]

/-- C9.  The number of records a refinance continuation can emit is
bounded by exactly the floor of `remainingYears * 12`: the code's
`int(years * 12)` truncation agrees with the floor on the nonnegative
domain, every run is bounded by it, and the bound is attained (for
example by a zero monthly payment on a positive balance). -/
theorem refinance_loop_bound_floor (principal annualRate years
    monthlyPayment : ℚ) (start_month : ℕ) (ci cp : ℚ) (hy : 0 ≤ years) :
    (amortization_refinance principal annualRate years monthlyPayment
        start_month ci cp).length ≤ (⌊years * 12⌋).toNat ∧
    pyInt (years * 12) = ⌊years * 12⌋ ∧
    (0 < principal → 0 ≤ annualRate →
      (amortization_refinance principal annualRate years 0 start_month
          ci cp).length = (⌊years * 12⌋).toNat) := by
  have hq : pyInt (years * 12) = ⌊years * 12⌋ :=
    pyInt_eq_floor _ (by positivity)
  refine ⟨?_, hq, ?_⟩
  · unfold amortization_refinance
    rw [hq]
    exact refiGo_length_le _ _ _ _ _ _ _ _
  · intro hp hr
    unfold amortization_refinance
    rw [hq]
    exact refiGo_zero_payment_length _ _ (by positivity) _ _ _ _ _ hp

/-- Witness for C9 at `remainingYears = 5/2`. -/
theorem refinance_loop_bound_floor_witness :
    (amortization_refinance 100 (12/100) (5/2) 77 3 1 2).length ≤
        (⌊(5/2 : ℚ) * 12⌋).toNat ∧
    pyInt ((5/2 : ℚ) * 12) = ⌊(5/2 : ℚ) * 12⌋ ∧
    (amortization_refinance 100 (12/100) (5/2) 0 3 1 2).length =
        (⌊(5/2 : ℚ) * 12⌋).toNat :=
  ⟨(refinance_loop_bound_floor 100 (12/100) (5/2) 77 3 1 2 (by norm_num)).1,
    (refinance_loop_bound_floor 100 (12/100) (5/2) 77 3 1 2 (by norm_num)).2.1,
    (refinance_loop_bound_floor 100 (12/100) (5/2) 77 3 1 2
      (by norm_num)).2.2 (by norm_num) (by norm_num)⟩

/-- Membership in the early-exit tail of a schedule loop: an element of
`if stop then [] else l` is an element of `l`. -/
lemma mem_of_ite_nil {α : Type} {c : Prop} [Decidable c] {l : List α}
    {x : α} (h : x ∈ if c then ([] : List α) else l) : x ∈ l := by
  by_cases hc : c
  · rw [if_pos hc] at h
    exact absurd h (List.not_mem_nil x)
  · rwa [if_neg hc] at h

/-- Every record of the plain loop satisfies payment = interest +
principal. -/
lemma schedGo_payIdent (r P : ℚ) :
    ∀ (k : ℕ) (b : ℚ), payIdentPlain (schedGo r P b k) := by
  intro k
  induction k with
  | zero => intro b row h; simp [schedGo] at h
  | succ k ih =>
    intro b row h
    rw [schedGo] at h
    rcases List.mem_cons.mp h with h1 | h2
    · subst h1
      by_cases hc : P - b * r > b <;> simp [hc]
    · exact ih _ row (mem_of_ite_nil h2)

/-- Every record of the extras loop satisfies payment = interest +
(scheduled + extra), has nonnegative extra, and scheduled at most the
total principal, given nonnegative extra inputs. -/
lemma payGo_payIdent (r P me : ℚ) (lm : Option ℕ) (la : ℚ)
    (hme : 0 ≤ me) (hla : 0 ≤ la) :
    ∀ (k month : ℕ) (b : ℚ), payIdentExtras (payGo r P me lm la month b k) := by
  intro k
  induction k with
  | zero => intro month b row h; simp [payGo] at h
  | succ k ih =>
    intro month b row h
    rw [payGo] at h
    rcases List.mem_cons.mp h with h1 | h2
    · subst h1
      have hex : 0 ≤ me + (if lumpApplies lm month then la else 0) := by
        split <;> linarith
      by_cases hc :
          P - b * r + (me + (if lumpApplies lm month then la else 0)) > b
      · refine ⟨?_, ?_, ?_⟩
        · simp [payStep, hc]
          try ring
        · simp [payStep, hc]
          try linarith [min_le_right (P - b * r) b]
        · simp [payStep, hc]
          try linarith [min_le_right (P - b * r) b]
      · refine ⟨?_, ?_, ?_⟩
        · simp [payStep, hc]
          try ring
        · simp [payStep, hc]
          try linarith
        · simp [payStep, hc]
          try linarith
    · exact ih _ _ row (mem_of_ite_nil h2)

/-- Each record of the continuation loop retires exactly
payment - interest of principal: threading opening balances, payment =
interest + (opening - closing). -/
lemma refiGo_accounts (r P : ℚ) (sm : ℕ) :
    ∀ (k : ℕ) (b ci cp : ℚ) (m : ℕ), accountsOK b (refiGo r P sm b ci cp m k) := by
  intro k
  induction k with
  | zero => intro b ci cp m; simp [refiGo, accountsOK]
  | succ k ih =>
    intro b ci cp m
    rw [refiGo]
    dsimp only [accountsOK]
    refine ⟨?_, ?_⟩
    · by_cases hc : P - b * r > b <;> simp [hc]
    · split_ifs <;> first
        | exact ih _ _ _ _
        | exact trivial

/-- C10.  Every record of each of the three schedule producers satisfies
the exact accounting identity payment = interest + principal paid that
month; in the extras variant the principal splits as scheduled + extra
with extra nonnegative and scheduled never exceeding the total, clamped
payoff months included. -/
theorem per_month_accounting_identity :
    (∀ (principal annualRate : ℚ) (years : ℕ),
      payIdentPlain (amortization_schedule principal annualRate years)) ∧
    (∀ (principal annualRate : ℚ) (years : ℕ) (me : ℚ) (lm : Option ℕ)
        (la : ℚ), 0 ≤ me → 0 ≤ la →
      payIdentExtras
        (amortization_schedule_with_payoffs principal annualRate years me
          lm la)) ∧
    (∀ (principal annualRate years monthlyPayment : ℚ) (sm : ℕ) (ci cp : ℚ),
      accountsOK principal
        (amortization_refinance principal annualRate years monthlyPayment
          sm ci cp)) := by
  refine ⟨?_, ?_, ?_⟩
  · intro p rat years
    exact schedGo_payIdent _ _ _ _
  · intro p rat years me lm la hme hla
    exact payGo_payIdent _ _ _ _ _ hme hla _ _ _
  · intro p rat y P sm ci cp
    exact refiGo_accounts _ _ _ _ _ _ _ _

/-- Witness for C10 on concrete schedules. -/
theorem per_month_accounting_identity_witness :
    payIdentPlain (amortization_schedule 100 (12/100) 1) ∧
    payIdentExtras
      (amortization_schedule_with_payoffs 100 (12/100) 1 5 (some 2) 7) ∧
    accountsOK 100 (amortization_refinance 100 (12/100) 1 10 3 0 0) :=
  ⟨per_month_accounting_identity.1 100 (12/100) 1,
    per_month_accounting_identity.2.1 100 (12/100) 1 5 (some 2) 7
      (by norm_num) (by norm_num),
    per_month_accounting_identity.2.2 100 (12/100) 1 10 3 0 0⟩

/-- With zero monthly extra and no lump sum, one step of the extras loop
produces the plain loop's row shape: the extra principal is 0, the
scheduled principal and closing balance follow the plain clamp, and the
payment is the clamped payment or the base payment. -/
lemma payStep_zero_extra (r P : ℚ) (month : ℕ) (b : ℚ) :
    payStep r P 0 none 0 month b =
      ⟨b - (if P - b * r > b then b else P - b * r), b * r,
        if P - b * r > b then b else P - b * r, 0,
        if P - b * r > b then b * r + b else P⟩ := by
  unfold payStep lumpApplies
  by_cases hc : P - b * r > b
  · have h1 : P - b * r + (0 + 0) > b := by linarith
    simp [h1, hc, min_eq_right (le_of_lt hc)]
  · have h1 : ¬(P - b * r + (0 + 0) > b) := by
      push_neg at hc ⊢
      linarith
    simp [h1, hc]

/-- The extras loop with zero monthly extra and no lump sum produces
exactly the plain loop: identical balance, interest, principal and payment
columns, and zero extra principal everywhere. -/
lemma payGo_zero_extra (r P : ℚ) :
    ∀ (k month : ℕ) (b : ℚ),
      ((payGo r P 0 none 0 month b k).map fun row =>
          (row.balance, row.interest, row.sched_principal, row.payment)) =
        ((schedGo r P b k).map fun row =>
          (row.balance, row.interest, row.principal, row.payment)) ∧
      ∀ row ∈ payGo r P 0 none 0 month b k, row.extra_principal = 0 := by
  intro k
  induction k with
  | zero =>
    intro month b
    exact ⟨rfl, by intro row h; simp [payGo] at h⟩
  | succ k ih =>
    intro month b
    constructor
    · simp only [payGo, schedGo, payStep_zero_extra, List.map_cons]
      by_cases hc : P - b * r > b
      · simp [hc]
      · by_cases hstop : b - (P - b * r) ≤ 0
        · simp [hc, hstop]
        · simp [hc, hstop, (ih (month + 1) (b - (P - b * r))).1]
    · intro row h
      simp only [payGo] at h
      rcases List.mem_cons.mp h with h1 | h2
      · subst h1
        rw [payStep_zero_extra]
      · exact (ih (month + 1) (payStep r P 0 none 0 month b).balance).2 row
          (mem_of_ite_nil h2)

/-- C3.  With monthly extra 0 and no lump sum (the source defaults),
`amortization_schedule_with_payoffs` produces the same schedule as the
plain `amortization_schedule`: identical per-month balance, interest,
total payment, and cumulative interest and payment series, with the
scheduled principal equal to the baseline's principal and the extra
principal identically 0. -/
theorem with_payoffs_zero_extra_eq_baseline (principal annualRate : ℚ)
    (years : ℕ) :
    ((amortization_schedule_with_payoffs principal annualRate years 0 none
        0).map fun row =>
        (row.balance, row.interest, row.sched_principal, row.payment)) =
      ((amortization_schedule principal annualRate years).map fun row =>
        (row.balance, row.interest, row.principal, row.payment)) ∧
    (∀ row ∈ amortization_schedule_with_payoffs principal annualRate years
        0 none 0, row.extra_principal = 0) ∧
    balancesP (amortization_schedule_with_payoffs principal annualRate years
        0 none 0) =
      balancesS (amortization_schedule principal annualRate years) ∧
    cumsum ((amortization_schedule_with_payoffs principal annualRate years
        0 none 0).map PRec.interest) =
      cumsum ((amortization_schedule principal annualRate years).map
        SRec.interest) ∧
    cumsum ((amortization_schedule_with_payoffs principal annualRate years
        0 none 0).map PRec.payment) =
      cumsum ((amortization_schedule principal annualRate years).map
        SRec.payment) := by
  have h := payGo_zero_extra (annualRate / 12)
    (calculate_monthly_payment principal annualRate years) (years * 12) 1
    principal
  have hcols :
      ((amortization_schedule_with_payoffs principal annualRate years 0 none
          0).map fun row =>
          (row.balance, row.interest, row.sched_principal, row.payment)) =
        ((amortization_schedule principal annualRate years).map fun row =>
          (row.balance, row.interest, row.principal, row.payment)) := h.1
  have hbal :
      balancesP (amortization_schedule_with_payoffs principal annualRate
          years 0 none 0) =
        balancesS (amortization_schedule principal annualRate years) := by
    have := congrArg (List.map Prod.fst) hcols
    simpa [List.map_map, balancesP, balancesS, Function.comp] using this
  have hint :
      ((amortization_schedule_with_payoffs principal annualRate years 0 none
          0).map PRec.interest) =
        ((amortization_schedule principal annualRate years).map
          SRec.interest) := by
    have := congrArg (List.map fun t : ℚ × ℚ × ℚ × ℚ => t.2.1) hcols
    simpa [List.map_map, Function.comp] using this
  have hpay :
      ((amortization_schedule_with_payoffs principal annualRate years 0 none
          0).map PRec.payment) =
        ((amortization_schedule principal annualRate years).map
          SRec.payment) := by
    have := congrArg (List.map fun t : ℚ × ℚ × ℚ × ℚ => t.2.2.2) hcols
    simpa [List.map_map, Function.comp] using this
  exact ⟨hcols, h.2, hbal, congrArg cumsum hint, congrArg cumsum hpay⟩

/-- The annuity payment rewritten over the positive power: payment =
monthlyRate * principal * A / (A - 1) with A = (1 + monthlyRate)^n. -/
lemma calculate_monthly_payment_pos_pow (p rat : ℚ) (years : ℕ)
    (hA1 : 1 < (1 + rat / 12) ^ (years * 12)) :
    calculate_monthly_payment p rat years =
      (rat / 12) * p * (1 + rat / 12) ^ (years * 12) /
        ((1 + rat / 12) ^ (years * 12) - 1) := by
  have hA0 : (0 : ℚ) < (1 + rat / 12) ^ (years * 12) := lt_trans one_pos hA1
  have hAne : (1 + rat / 12) ^ (years * 12) ≠ 0 := ne_of_gt hA0
  unfold calculate_monthly_payment
  simp only [qpow_neg_natCast]
  rw [zpow_neg, zpow_natCast]
  have key : 1 - ((1 + rat / 12) ^ (years * 12))⁻¹ =
      ((1 + rat / 12) ^ (years * 12) - 1) / (1 + rat / 12) ^ (years * 12) := by
    rw [sub_div, div_self hAne, one_div]
  rw [key, div_div_eq_mul_div]

/-- Under valid loan terms the standard payment strictly exceeds the
first month's interest, and satisfies the exact payoff identity
principal * monthlyRate * A = payment * (A - 1). -/
lemma payment_props (p rat : ℚ) (years : ℕ) (hp : 0 < p) (hr : 0 < rat)
    (hy : 1 ≤ years) :
    p * (rat / 12) < calculate_monthly_payment p rat years ∧
    p * (rat / 12) * (1 + rat / 12) ^ (years * 12) =
      calculate_monthly_payment p rat years *
        ((1 + rat / 12) ^ (years * 12) - 1) := by
  have hr12 : 0 < rat / 12 := by positivity
  have hn0 : years * 12 ≠ 0 := by omega
  have hA1 : 1 < (1 + rat / 12) ^ (years * 12) :=
    one_lt_pow₀ (by linarith) hn0
  have hA0 : (0 : ℚ) < (1 + rat / 12) ^ (years * 12) := lt_trans one_pos hA1
  have hEq := calculate_monthly_payment_pos_pow p rat years hA1
  constructor
  · rw [hEq, lt_div_iff₀ (by linarith)]
    nlinarith [mul_pos hp hr12]
  · rw [hEq, div_mul_cancel₀ _ (ne_of_gt (by linarith :
      (0 : ℚ) < (1 + rat / 12) ^ (years * 12) - 1))]
    ring

/-- The closing balance produced by one step of the extras loop: zero when
the total principal is clamped, the decremented balance otherwise. -/
lemma payStep_balance_eq (r P me la : ℚ) (lm : Option ℕ) (month : ℕ)
    (b : ℚ) :
    (payStep r P me lm la month b).balance =
      if P - b * r + (me + (if lumpApplies lm month then la else 0)) > b
      then 0
      else b - (P - b * r +
        (me + (if lumpApplies lm month then la else 0))) := by
  by_cases h : P - b * r + (me + (if lumpApplies lm month then la else 0)) > b
  · simp [payStep, h]
  · simp [payStep, h]

/-- While the payment exceeds the running interest and the extras are
nonnegative, closing balances strictly decrease from the opening
balance. -/
lemma payGo_chain (r P me la : ℚ) (lm : Option ℕ) (hr : 0 ≤ r)
    (hme : 0 ≤ me) (hla : 0 ≤ la) :
    ∀ (k month : ℕ) (b : ℚ), 0 < b → b * r < P →
      strictChain b (balancesP (payGo r P me lm la month b k)) := by
  intro k
  induction k with
  | zero =>
    intro month b hb hP
    simp [payGo, balancesP, strictChain]
  | succ k ih =>
    intro month b hb hP
    have hex : 0 ≤ me + (if lumpApplies lm month then la else 0) := by
      split <;> linarith
    have hlt : (payStep r P me lm la month b).balance < b := by
      rw [payStep_balance_eq]
      by_cases h :
          P - b * r + (me + (if lumpApplies lm month then la else 0)) > b
      · rw [if_pos h]
        exact hb
      · rw [if_neg h]
        linarith
    rw [payGo]
    simp only [balancesP, List.map_cons]
    refine ⟨hlt, ?_⟩
    split_ifs with hstop
    · exact trivial
    · push_neg at hstop
      have hP2 : (payStep r P me lm la month b).balance * r < P :=
        lt_of_le_of_lt
          (mul_le_mul_of_nonneg_right (le_of_lt hlt) hr) hP
      exact ih (month + 1) _ hstop hP2

/-- Payoff within the remaining term: if the annuity payoff inequality
balance * rate * (1+rate)^k at most payment * ((1+rate)^k - 1) holds at
the current balance, the loop terminates with a final closing balance of
exactly 0 (extras only accelerate this). -/
lemma payGo_payoff (r P me la : ℚ) (lm : Option ℕ) (hr : 0 < r)
    (hme : 0 ≤ me) (hla : 0 ≤ la) :
    ∀ (k month : ℕ) (b : ℚ), 0 < b →
      b * r * (1 + r) ^ k ≤ P * ((1 + r) ^ k - 1) →
      payGo r P me lm la month b k ≠ [] ∧
      (balancesP (payGo r P me lm la month b k)).getLast? = some 0 := by
  intro k
  induction k with
  | zero =>
    intro month b hb hpay
    exfalso
    simp only [pow_zero, mul_one, sub_self, mul_zero] at hpay
    nlinarith [mul_pos hb hr]
  | succ k ih =>
    intro month b hb hpay
    have hex : 0 ≤ me + (if lumpApplies lm month then la else 0) := by
      split <;> linarith
    rw [payGo]
    refine ⟨List.cons_ne_nil _ _, ?_⟩
    by_cases hstop : (payStep r P me lm la month b).balance ≤ 0
    · rw [if_pos hstop]
      have hzero : (payStep r P me lm la month b).balance = 0 := by
        rw [payStep_balance_eq] at hstop ⊢
        by_cases h :
            P - b * r + (me + (if lumpApplies lm month then la else 0)) > b
        · rw [if_pos h]
        · rw [if_neg h] at hstop ⊢
          push_neg at h
          linarith
      simp [balancesP, hzero]
    · rw [if_neg hstop]
      push_neg at hstop
      have hchar : (payStep r P me lm la month b).balance =
          b - (P - b * r +
            (me + (if lumpApplies lm month then la else 0))) := by
        rw [payStep_balance_eq]
        by_cases h :
            P - b * r + (me + (if lumpApplies lm month then la else 0)) > b
        · exfalso
          rw [payStep_balance_eq, if_pos h] at hstop
          exact lt_irrefl 0 hstop
        · rw [if_neg h]
      have hpow : (0 : ℚ) < (1 + r) ^ k := by positivity
      have hcond : (payStep r P me lm la month b).balance * r *
          (1 + r) ^ k ≤ P * ((1 + r) ^ k - 1) := by
        have h1 : (payStep r P me lm la month b).balance ≤
            b * (1 + r) - P := by
          rw [hchar]
          linarith
        have hrA : 0 ≤ r * (1 + r) ^ k := by positivity
        have hmul := mul_le_mul_of_nonneg_right h1 hrA
        have hexp : (b * (1 + r) - P) * (r * (1 + r) ^ k) =
            b * r * (1 + r) ^ (k + 1) - P * r * (1 + r) ^ k := by
          ring
        have hfin : P * ((1 + r) ^ (k + 1) - 1) - P * r * (1 + r) ^ k =
            P * ((1 + r) ^ k - 1) := by
          ring
        nlinarith [hmul, hpay]
      obtain ⟨hne, hlast⟩ := ih (month + 1) _ hstop hcond
      obtain ⟨y, ys, hys⟩ := List.exists_cons_of_ne_nil hne
      rw [hys] at hlast ⊢
      simp only [balancesP, List.map_cons] at hlast ⊢
      rw [List.getLast?_cons_cons]
      exact hlast

/-- A strictly descending chain ending in a last element stays above that
element. -/
lemma strictChain_last_lt (z : ℚ) :
    ∀ (l : List ℚ) (b : ℚ), strictChain b l → l.getLast? = some z →
      z < b := by
  intro l
  induction l with
  | nil => intro b _ h; simp at h
  | cons x xs ih =>
    intro b hc hl
    rcases hc with ⟨hxb, hxs⟩
    cases xs with
    | nil =>
      simp only [List.getLast?_singleton, Option.some.injEq] at hl
      exact hl ▸ hxb
    | cons y ys =>
      rw [List.getLast?_cons_cons] at hl
      exact lt_trans (ih x hxs hl) hxb

/-- In a strictly descending chain whose last element is 0, every element
before the last is positive. -/
lemma strictChain_dropLast_pos :
    ∀ (l : List ℚ) (b : ℚ), strictChain b l → l.getLast? = some 0 →
      ∀ q ∈ l.dropLast, 0 < q := by
  intro l
  induction l with
  | nil => intro b _ _ q hq; simp at hq
  | cons x xs ih =>
    intro b hc hl q hq
    rcases hc with ⟨hxb, hxs⟩
    cases xs with
    | nil => simp at hq
    | cons y ys =>
      rw [List.getLast?_cons_cons] at hl
      rw [List.dropLast_cons₂, List.mem_cons] at hq
      rcases hq with rfl | hmem
      · exact strictChain_last_lt 0 (y :: ys) q hxs hl
      · exact ih x hxs hl q hmem

/-- Combined payoff-shape invariant for the extras loop: under a positive
monthly rate, nonnegative extras, a positive opening balance, and the
annuity payoff inequality over the loop bound, the closing-balance column
is nonempty, strictly decreasing, ends in exactly 0, and is positive
before the final record. -/
lemma payGo_payoffInvariant (r P me la : ℚ) (lm : Option ℕ)
    (k month : ℕ) (b : ℚ) (hr : 0 < r) (hme : 0 ≤ me) (hla : 0 ≤ la)
    (hb : 0 < b) (hpay : b * r * (1 + r) ^ k ≤ P * ((1 + r) ^ k - 1)) :
    payoffInvariant b (balancesP (payGo r P me lm la month b k)) := by
  have hPgt : b * r < P := by
    have hk : k ≠ 0 := by
      rintro rfl
      simp only [pow_zero, mul_one, sub_self, mul_zero] at hpay
      nlinarith [mul_pos hb hr]
    have hA1 : 1 < (1 + r) ^ k := one_lt_pow₀ (by linarith) hk
    by_contra hle
    push_neg at hle
    have h1 : P * ((1 + r) ^ k - 1) ≤ b * r * ((1 + r) ^ k - 1) :=
      mul_le_mul_of_nonneg_right hle (by linarith)
    have hbr : 0 < b * r := mul_pos hb hr
    nlinarith [hpay]
  obtain ⟨hne, hlast⟩ := payGo_payoff r P me la lm hr hme hla k month b hb hpay
  have hchain := payGo_chain r P me la lm (le_of_lt hr) hme hla k month b hb hPgt
  refine ⟨?_, hchain, hlast, strictChain_dropLast_pos _ _ hchain hlast⟩
  simpa [balancesP] using hne

/-- The closing-balance column of the refinance loop equals that of the
plain loop on the same rate, payment, opening balance and bound: the
cumulative accumulators and month offsets do not influence balances. -/
lemma refiGo_balances (r P : ℚ) (sm : ℕ) :
    ∀ (k : ℕ) (b ci cp : ℚ) (m : ℕ),
      balancesR (refiGo r P sm b ci cp m k) = balancesS (schedGo r P b k) := by
  intro k
  induction k with
  | zero => intro b ci cp m; rfl
  | succ k ih =>
    intro b ci cp m
    rw [refiGo, schedGo]
    simp only [balancesR, balancesS, List.map_cons] at ih ⊢
    refine congrArg (fun l => (b - (if P - b * r > b then b
      else P - b * r)) :: l) ?_
    by_cases hstop : b - (if P - b * r > b then b else P - b * r) ≤ 0
    · rw [if_pos hstop, if_pos hstop]
      rfl
    · rw [if_neg hstop, if_neg hstop]
      exact ih _ _ _ _

/-- The closing-balance column of the plain loop equals that of the
extras loop run with zero extras. -/
lemma schedGo_balances_eq_payGo (r P : ℚ) (k month : ℕ) (b : ℚ) :
    balancesS (schedGo r P b k) =
      balancesP (payGo r P 0 none 0 month b k) := by
  have h := congrArg (List.map Prod.fst) (payGo_zero_extra r P k month b).1
  simpa [List.map_map, balancesP, balancesS, Function.comp] using h.symm

/-- C1, counterexample.  The claim quantifies over every schedule produced
by continueSchedule; with a monthly payment of 0 on a positive carry
balance (rate 12 percent, remaining term two months) the balance grows
and the final record's closing balance is not 0. -/
theorem refinance_final_balance_nonzero_cex :
    (balancesR (amortization_refinance 100 (12/100) (1/6) 0 0 0 0)).getLast?
      ≠ some 0 := by
  norm_num [amortization_refinance, refiGo, balancesR, pyInt,
    List.getLast?]

/-- C1, amended.  The payoff-shape invariant (nonempty schedule, strictly
decreasing closing balance, final balance exactly 0, all earlier balances
positive so nothing follows the payoff month) holds for
`amortization_schedule` and `amortization_schedule_with_payoffs` under
valid loan terms with nonnegative extras, and for
`amortization_refinance` provided the supplied monthly payment is at
least the fully amortizing payment over the truncated remaining term
(the annuity payoff inequality below); a smaller payment (such as 0) can
leave the final balance positive, so the refinance clause needs this
payment hypothesis. -/
theorem schedule_payoff_invariants :
    (∀ (principal annualRate : ℚ) (years : ℕ),
      0 < principal → 0 < annualRate → annualRate < 1 → 1 ≤ years →
      payoffInvariant principal
        (balancesS (amortization_schedule principal annualRate years))) ∧
    (∀ (principal annualRate : ℚ) (years : ℕ) (me : ℚ) (lm : Option ℕ)
        (la : ℚ),
      0 < principal → 0 < annualRate → annualRate < 1 → 1 ≤ years →
      0 ≤ me → 0 ≤ la →
      payoffInvariant principal
        (balancesP (amortization_schedule_with_payoffs principal annualRate
          years me lm la))) ∧
    (∀ (principal annualRate years monthlyPayment : ℚ) (sm : ℕ)
        (ci cp : ℚ),
      0 < principal → 0 < annualRate →
      principal * (annualRate / 12) *
          (1 + annualRate / 12) ^ (pyInt (years * 12)).toNat ≤
        monthlyPayment *
          ((1 + annualRate / 12) ^ (pyInt (years * 12)).toNat - 1) →
      payoffInvariant principal
        (balancesR (amortization_refinance principal annualRate years
          monthlyPayment sm ci cp))) := by
  refine ⟨?_, ?_, ?_⟩
  · intro p rat years hp hr0 hr1 hy
    have hprops := payment_props p rat years hp hr0 hy
    unfold amortization_schedule
    rw [schedGo_balances_eq_payGo (rat / 12)
      (calculate_monthly_payment p rat years) (years * 12) 1 p]
    exact payGo_payoffInvariant _ _ 0 0 none (years * 12) 1 p
      (by positivity) le_rfl le_rfl hp (le_of_eq hprops.2)
  · intro p rat years me lm la hp hr0 hr1 hy hme hla
    have hprops := payment_props p rat years hp hr0 hy
    unfold amortization_schedule_with_payoffs
    exact payGo_payoffInvariant _ _ me la lm (years * 12) 1 p
      (by positivity) hme hla hp (le_of_eq hprops.2)
  · intro p rat y P sm ci cp hp hr0 hpay
    unfold amortization_refinance
    rw [refiGo_balances, schedGo_balances_eq_payGo _ _ _ 1]
    exact payGo_payoffInvariant _ _ 0 0 none _ 1 p (by positivity)
      le_rfl le_rfl hp hpay

/-- Witness for C1's amended statement: a one-year loan at 12 percent for
the two simulate variants, and a one-month continuation whose payment
meets the payoff inequality with equality. -/
theorem schedule_payoff_invariants_witness :
    payoffInvariant 100
      (balancesS (amortization_schedule 100 (12/100) 1)) ∧
    payoffInvariant 100
      (balancesP (amortization_schedule_with_payoffs 100 (12/100) 1 5
        (some 2) 7)) ∧
    payoffInvariant 100
      (balancesR (amortization_refinance 100 (12/100) (1/12) 101 3 0 0)) :=
  ⟨schedule_payoff_invariants.1 100 (12/100) 1 (by norm_num) (by norm_num)
      (by norm_num) (by norm_num),
    schedule_payoff_invariants.2.1 100 (12/100) 1 5 (some 2) 7 (by norm_num)
      (by norm_num) (by norm_num) (by norm_num) (by norm_num) (by norm_num),
    schedule_payoff_invariants.2.2 100 (12/100) (1/12) 101 3 0 0
      (by norm_num) (by norm_num) (by norm_num [pyInt])⟩

/-- Pointwise domination of closing balances: a run with larger extras on
a smaller-or-equal balance closes the month at a smaller-or-equal
balance. -/
lemma payStep_balance_mono (r P : ℚ) (lm : Option ℕ)
    (me1 la1 me2 la2 : ℚ) (hr : 0 ≤ r) (hme : me1 ≤ me2)
    (hla : la1 ≤ la2) (month : ℕ) (b1 b2 : ℚ) (hb : b2 ≤ b1) :
    (payStep r P me2 lm la2 month b2).balance ≤
      (payStep r P me1 lm la1 month b1).balance := by
  rw [payStep_balance_eq, payStep_balance_eq]
  have hee : me1 + (if lumpApplies lm month then la1 else 0) ≤
      me2 + (if lumpApplies lm month then la2 else 0) := by
    split <;> linarith
  have hbr : b2 * r ≤ b1 * r := mul_le_mul_of_nonneg_right hb hr
  by_cases h2 :
      P - b2 * r + (me2 + (if lumpApplies lm month then la2 else 0)) > b2
  · rw [if_pos h2]
    by_cases h1 :
        P - b1 * r + (me1 + (if lumpApplies lm month then la1 else 0)) > b1
    · rw [if_pos h1]
    · rw [if_neg h1]
      push_neg at h1
      linarith
  · rw [if_neg h2]
    by_cases h1 :
        P - b1 * r + (me1 + (if lumpApplies lm month then la1 else 0)) > b1
    · exfalso
      push_neg at h2
      linarith
    · rw [if_neg h1]
      linarith

/-- A run with pointwise larger extra amounts terminates no later: its
schedule is no longer. -/
lemma payGo_length_antitone (r P : ℚ) (lm : Option ℕ)
    (me1 la1 me2 la2 : ℚ) (hr : 0 ≤ r) (hme : me1 ≤ me2)
    (hla : la1 ≤ la2) :
    ∀ (k month : ℕ) (b1 b2 : ℚ), b2 ≤ b1 →
      (payGo r P me2 lm la2 month b2 k).length ≤
        (payGo r P me1 lm la1 month b1 k).length := by
  intro k
  induction k with
  | zero => intro month b1 b2 hb; simp [payGo]
  | succ k ih =>
    intro month b1 b2 hb
    rw [payGo, payGo]
    simp only [List.length_cons, Nat.add_le_add_iff_right]
    have hmono := payStep_balance_mono r P lm me1 la1 me2 la2 hr hme hla
      month b1 b2 hb
    by_cases h2 : (payStep r P me2 lm la2 month b2).balance ≤ 0
    · rw [if_pos h2]
      simp
    · rw [if_neg h2]
      push_neg at h2
      have h1 : ¬((payStep r P me1 lm la1 month b1).balance ≤ 0) := by
        push_neg
        linarith
      rw [if_neg h1]
      exact ih (month + 1) _ _ hmono

/-- C4.  For identical terms and lump month, raising the monthly extra
and lump amounts pointwise (all nonnegative) can only shorten the
schedule; in particular any nonnegative strategy is no longer than the
zero-extra baseline. -/
theorem extra_payment_shortens_schedule (principal annualRate : ℚ)
    (years : ℕ) (me1 me2 : ℚ) (lm : Option ℕ) (la1 la2 : ℚ)
    (hr : 0 ≤ annualRate) (h1 : 0 ≤ me1) (h2 : me1 ≤ me2)
    (h3 : 0 ≤ la1) (h4 : la1 ≤ la2) :
    (amortization_schedule_with_payoffs principal annualRate years me2 lm
        la2).length ≤
      (amortization_schedule_with_payoffs principal annualRate years me1 lm
        la1).length := by
  unfold amortization_schedule_with_payoffs
  exact payGo_length_antitone _ _ lm me1 la1 me2 la2 (by positivity) h2 h4
    (years * 12) 1 principal principal le_rfl

/-- Witness for C4: a 500-per-month extra against the zero-extra
baseline. -/
theorem extra_payment_shortens_schedule_witness :
    (amortization_schedule_with_payoffs 100000 (12/100) 1 500 none
        0).length ≤
      (amortization_schedule_with_payoffs 100000 (12/100) 1 0 none
        0).length :=
  extra_payment_shortens_schedule 100000 (12/100) 1 0 500 none 0 0
    (by norm_num) (by norm_num) (by norm_num) (by norm_num) (by norm_num)

/-- In a month where the lump sum does not apply, the extras step closes
at the no-lump balance `stepBalance`. -/
lemma payStep_noLump (r P me la : ℚ) (lm : Option ℕ) (month : ℕ) (b : ℚ)
    (h : lumpApplies lm month = false) :
    (payStep r P me lm la month b).balance = stepBalance r P me b := by
  rw [stepBalance, payStep_balance_eq, payStep_balance_eq]
  simp [h]

/-- Reaching the lump month with a positive balance and a lump amount at
least that balance, the loop clamps there: exactly `d + 1` further records
are emitted when the lump month is `month + d`, and the final balance is
exactly 0. -/
lemma payGo_lump_payoff (r P me la : ℚ) (hr : 0 ≤ r) (hme : 0 ≤ me) :
    ∀ (d k month : ℕ) (b : ℚ), 0 < month → 0 < b → b * r < P →
      d + 1 ≤ k →
      (∀ j, j < d → 0 < balAt r P me b (j + 1)) →
      balAt r P me b d ≤ la →
      (payGo r P me (some (month + d)) la month b k).length = d + 1 ∧
      (balancesP (payGo r P me (some (month + d)) la month b k)).getLast?
        = some 0 := by
  intro d
  induction d with
  | zero =>
    intro k month b hmonth hb hP hk _ hla
    obtain ⟨k', rfl⟩ : ∃ k', k = k' + 1 := ⟨k - 1, by omega⟩
    rw [Nat.add_zero]
    have happ : lumpApplies (some month) month = true := by
      simp [lumpApplies]
      omega
    have hlab : b ≤ la := by simpa [balAt] using hla
    have hbal : (payStep r P me (some month) la month b).balance = 0 := by
      rw [payStep_balance_eq]
      rw [if_pos happ]
      rw [if_pos (by linarith : P - b * r + (me + la) > b)]
    constructor
    · rw [payGo, if_pos (le_of_eq hbal)]
      rfl
    · rw [payGo, if_pos (le_of_eq hbal)]
      simp [balancesP, hbal]
  | succ d ih =>
    intro k month b hmonth hb hP hk hjs hla
    obtain ⟨k', rfl⟩ : ∃ k', k = k' + 1 := ⟨k - 1, by omega⟩
    rw [show month + (d + 1) = (month + 1) + d from by omega]
    have happ : lumpApplies (some ((month + 1) + d)) month = false := by
      simp [lumpApplies]
      omega
    have hbal1 : (payStep r P me (some ((month + 1) + d)) la month
        b).balance = balAt r P me b 1 := by
      rw [payStep_noLump r P me la _ month b happ]
      simp [balAt]
    have hb1pos : 0 < balAt r P me b 1 := hjs 0 (by omega)
    have hlt1 : balAt r P me b 1 < b := by
      have hchar : balAt r P me b 1 = (payStep r P me none 0 1 b).balance := by
        simp [balAt, stepBalance]
      rw [hchar, payStep_balance_eq]
      simp only [ite_self]
      split_ifs with h
      · exact hb
      · linarith
    have hns : ¬((payStep r P me (some ((month + 1) + d)) la month
        b).balance ≤ 0) := by
      rw [hbal1]
      exact not_le.2 hb1pos
    have hP1 : balAt r P me b 1 * r < P :=
      lt_of_le_of_lt (mul_le_mul_of_nonneg_right (le_of_lt hlt1) hr) hP
    have hshift : ∀ j, j < d →
        0 < balAt r P me (balAt r P me b 1) (j + 1) := by
      intro j hj
      have heq : balAt r P me (balAt r P me b 1) (j + 1) =
          balAt r P me b (j + 1 + 1) := by
        simp only [balAt, Function.iterate_one]
        rw [← Function.iterate_succ_apply]
      rw [heq]
      exact hjs (j + 1) (by omega)
    have hla' : balAt r P me (balAt r P me b 1) d ≤ la := by
      have heq : balAt r P me (balAt r P me b 1) d =
          balAt r P me b (d + 1) := by
        simp only [balAt, Function.iterate_one]
        rw [← Function.iterate_succ_apply]
      rw [heq]
      exact hla
    obtain ⟨hlen, hlast⟩ := ih k' (month + 1)
      ((payStep r P me (some ((month + 1) + d)) la month b).balance)
      (by omega) (by rw [hbal1]; exact hb1pos) (by rw [hbal1]; exact hP1)
      (by omega) (by rw [hbal1]; exact hshift) (by rw [hbal1]; exact hla')
    rw [payGo, if_neg hns]
    refine ⟨by simp only [List.length_cons, hlen], ?_⟩
    have hne : payGo r P me (some ((month + 1) + d)) la (month + 1)
        ((payStep r P me (some ((month + 1) + d)) la month b).balance) k'
        ≠ [] := by
      intro hcontra
      rw [hcontra] at hlen
      simp at hlen
    obtain ⟨y, ys, hys⟩ := List.exists_cons_of_ne_nil hne
    rw [hys] at hlast ⊢
    simp only [balancesP, List.map_cons] at hlast ⊢
    rw [List.getLast?_cons_cons]
    exact hlast

/-- C5.  Under valid terms with nonnegative monthly extra, if the loan is
not yet paid off entering month `m` (every balance of the no-lump
recurrence before month `m` is positive) and the lump sum applied at
month `m` is at least the balance at the start of month `m`, then the
schedule has exactly `m` records and its final closing balance is exactly
0; with `m = 1` a lump sum of at least the principal yields a one-record
schedule. -/
theorem lump_sum_clamp_payoff (principal annualRate : ℚ) (years : ℕ)
    (me : ℚ) (m : ℕ) (la : ℚ)
    (hp : 0 < principal) (hr0 : 0 < annualRate) (hr1 : annualRate < 1)
    (hy : 1 ≤ years) (hme : 0 ≤ me) (hm1 : 1 ≤ m) (hm2 : m ≤ years * 12)
    (hsurv : ∀ j, j < m → 0 < balAt (annualRate / 12)
      (calculate_monthly_payment principal annualRate years) me principal j)
    (hla : balAt (annualRate / 12)
      (calculate_monthly_payment principal annualRate years) me principal
      (m - 1) ≤ la) :
    (amortization_schedule_with_payoffs principal annualRate years me
        (some m) la).length = m ∧
    (balancesP (amortization_schedule_with_payoffs principal annualRate
        years me (some m) la)).getLast? = some 0 := by
  have hprops := payment_props principal annualRate years hp hr0 hy
  unfold amortization_schedule_with_payoffs
  have hL : m = 1 + (m - 1) := by omega
  rw [hL]
  have h := payGo_lump_payoff (annualRate / 12)
    (calculate_monthly_payment principal annualRate years) me la
    (by positivity) hme (m - 1) (years * 12) 1 principal (by norm_num)
    hp hprops.1 (by omega)
    (fun j hj => hsurv (j + 1) (by omega)) hla
  refine ⟨?_, h.2⟩
  rw [h.1]
  omega

/-- Witness for C5 at month 1: a lump sum equal to the principal pays the
loan off in a single record. -/
theorem lump_sum_clamp_payoff_witness :
    (amortization_schedule_with_payoffs 1000 (12/100) 1 0 (some 1)
        1000).length = 1 ∧
    (balancesP (amortization_schedule_with_payoffs 1000 (12/100) 1 0
        (some 1) 1000)).getLast? = some 0 :=
  lump_sum_clamp_payoff 1000 (12/100) 1 0 1 1000 (by norm_num)
    (by norm_num) (by norm_num) (by norm_num) (by norm_num) (by norm_num)
    (by norm_num)
    (by
      intro j hj
      interval_cases j
      simp [balAt])
    (by simp [balAt])
